import Mathlib

/-!
Shallow embedding of `src/dbmr.py` (Direct Bayesian Model Reduction, Gerber & Horenko
PNAS 2017) and proofs about it.

Matrices are embedded as functions `Fin m → Fin n → ℝ`.  The numpy random sample used to
initialize `Lambda` is made an explicit argument `R` of `estimate_dbmr` (the source draws
it from `np.random.random_sample`); everything downstream of the draw is deterministic.
The `print` on the non-convergence path is modelled by an `Option NonConvMsg` field of the
result, carrying exactly the data the source interpolates into the message (the
convergence threshold, the last delta, and `max_iter`).  The `while` loop is embedded as
a fuel-indexed recursion started with fuel `max_iter + 1`; fuel exhaustion is proved
unreachable (see the fuel-stability theorem below).
-/

namespace DBMR

noncomputable section

/-- Embedding of `dbmr_likelihood` (src/dbmr.py line 8-9):
`np.einsum('ij,kj,ik->', Count, Gamma, np.log(np.maximum(Lambda, 1e-16)))`,
i.e. the full contraction over all three indices. -/
def dbmr_likelihood {N K : ℕ} (Lambda : Fin N → Fin K → ℝ) (Gamma : Fin K → Fin N → ℝ)
    (Count : Fin N → Fin N → ℝ) : ℝ :=
  ∑ i, ∑ j, ∑ k, Count i j * Gamma k j * Real.log (max (Lambda i k) 1e-16)

/-- One step of the left-to-right scan `np.argmax` performs: a later index replaces the
current best only on a strictly larger value, so ties keep the earlier index. -/
def argStep {K : ℕ} (f : Fin K → ℝ) (best a : Fin K) : Fin K :=
  if f best < f a then a else best

/-- Embedding of `np.argmax` over one axis: the first-occurring index of the maximum. -/
def np_argmax {K : ℕ} [NeZero K] (f : Fin K → ℝ) : Fin K :=
  (List.finRange K).foldl (argStep f) ⟨0, Nat.pos_of_ne_zero (NeZero.ne K)⟩

/-- The score matrix of the hard-assignment step (src/dbmr.py lines 38 and 49):
`np.einsum('ij,jk->ki', C, np.log(np.maximum(Lambda, 1e-16)))`, whose `(k, i)` entry is
`sum_j C[i,j] * log(max(Lambda[j,k], 1e-16))`. -/
def gammaScore {N K : ℕ} (C : Fin N → Fin N → ℝ) (Lambda : Fin N → Fin K → ℝ)
    (k : Fin K) (i : Fin N) : ℝ :=
  ∑ j, C i j * Real.log (max (Lambda j k) 1e-16)

/-- The latent state the source assigns to observed state `i`:
`np.argmax(score, axis=0)` evaluated at column `i`. -/
def assign {N K : ℕ} [NeZero K] (C : Fin N → Fin N → ℝ) (Lambda : Fin N → Fin K → ℝ)
    (i : Fin N) : Fin K :=
  np_argmax fun k => gammaScore C Lambda k i

/-- The hard-assignment matrix built at src/dbmr.py lines 37-39 and 48-50: every entry is
floored to `1e-16`, then `Gamma[s,i] = 1` for `s` the argmax of column `i`'s score. -/
def updateGamma {N K : ℕ} [NeZero K] (C : Fin N → Fin N → ℝ) (Lambda : Fin N → Fin K → ℝ) :
    Fin K → Fin N → ℝ :=
  fun k i => if k = assign C Lambda i then 1 else 1e-16

/-- Embedding of `Lambda_new_un = np.einsum('ij,kj->ki', C, Gamma)` (src/dbmr.py line
46): entry `(k, i)` is `sum_j C[i,j] * Gamma[k,j]`. -/
def lambdaUnnorm {N K : ℕ} (C : Fin N → Fin N → ℝ) (Gamma : Fin K → Fin N → ℝ)
    (k : Fin K) (i : Fin N) : ℝ :=
  ∑ j, C i j * Gamma k j

/-- Embedding of `Lambda = (Lambda_new_un / Lambda_new_un.sum(axis=1)[:, None]).T`
(src/dbmr.py line 47): each row of the unnormalized update is divided by its sum, then
the result is transposed. -/
def updateLambda {N K : ℕ} (C : Fin N → Fin N → ℝ) (Gamma : Fin K → Fin N → ℝ) :
    Fin N → Fin K → ℝ :=
  fun i k => lambdaUnnorm C Gamma k i / ∑ x, lambdaUnnorm C Gamma k x

/-- Initialization of `Lambda` (src/dbmr.py lines 33-34): the random sample `R` with each
column divided by its sum. -/
def initLambda {N K : ℕ} (R : Fin N → Fin K → ℝ) : Fin N → Fin K → ℝ :=
  fun i k => R i k / ∑ x, R x k

/-- The delta computed at src/dbmr.py lines 52-55: `1` when `lls` is empty, otherwise the
absolute difference between the fresh likelihood and `lls[-1]`. -/
def pyDelta (lls : List ℝ) (ll : ℝ) : ℝ :=
  match lls.getLast? with
  | none => 1
  | some prev => |ll - prev|

/-- Data interpolated into the non-convergence `print` at src/dbmr.py line 58: the
convergence threshold, the current delta, and `max_iter`. -/
structure NonConvMsg where
  conv : ℝ
  delta : ℝ
  maxIter : ℕ

/-- The values `estimate_dbmr` hands back: the returned triple plus the (optional)
non-convergence diagnostic emitted on the way out. -/
structure EstimateResult (N K : ℕ) where
  Lambda : Fin N → Fin K → ℝ
  Gamma : Fin K → Fin N → ℝ
  lls : List ℝ
  msg : Option NonConvMsg

/-- The `while delta_ll > convergence` loop of `estimate_dbmr` (src/dbmr.py lines 45-59),
indexed by fuel.  One pass recomputes `Lambda` from the current `Gamma`, recomputes the
hard assignment, evaluates the likelihood, computes the delta against the previous entry,
appends, and breaks with a diagnostic once the trace length exceeds `max_iter`. -/
def estimate_loop {N K : ℕ} [NeZero K] (C : Fin N → Fin N → ℝ) (conv : ℝ) (max_iter : ℕ) :
    ℕ → (Fin N → Fin K → ℝ) → (Fin K → Fin N → ℝ) → List ℝ → ℝ → EstimateResult N K
  | 0, Lambda, Gamma, lls, _ => ⟨Lambda, Gamma, lls, none⟩
  | fuel + 1, Lambda, Gamma, lls, delta_ll =>
    if conv < delta_ll then
      let Lambda2 := updateLambda C Gamma
      let Gamma2 := updateGamma C Lambda2
      let ll := dbmr_likelihood Lambda2 Gamma2 C
      let delta2 := pyDelta lls ll
      let lls2 := lls ++ [ll]
      if max_iter < lls2.length then
        ⟨Lambda2, Gamma2, lls2, some ⟨conv, delta2, max_iter⟩⟩
      else
        estimate_loop C conv max_iter fuel Lambda2 Gamma2 lls2 delta2
    else ⟨Lambda, Gamma, lls, none⟩

/-- Embedding of `estimate_dbmr` (src/dbmr.py lines 11-60), with the random sample `R`
passed explicitly.  `Lambda` is the column-normalized sample, `Gamma` is the initial hard
assignment, `lls` starts empty and `delta_ll` starts at `1`; the loop runs with fuel
`max_iter + 1`, which is enough (proved below). -/
def estimate_dbmr {N K : ℕ} [NeZero K] (C : Fin N → Fin N → ℝ) (R : Fin N → Fin K → ℝ)
    (conv : ℝ) (max_iter : ℕ) : EstimateResult N K :=
  estimate_loop C conv max_iter (max_iter + 1) (initLambda R)
    (updateGamma C (initLambda R)) [] 1

/-- The score the specification prescribes for the hard assignment, written from the
spec's words for comparison with `gammaScore`: for observed state `j`, latent state `k`
scores `sum_i C[i,j] * log(max(Lambda[i,k], epsilon))`.  (The source contracts the other
index of `C`: compare `gammaScore`.) -/
def gammaScoreSpec {N K : ℕ} (C : Fin N → Fin N → ℝ) (Lambda : Fin N → Fin K → ℝ)
    (k : Fin K) (j : Fin N) : ℝ :=
  ∑ i, C i j * Real.log (max (Lambda i k) 1e-16)

/-- The assignment the specification prescribes for observed state `j`: the
first-occurring argmax over latent states of `gammaScoreSpec`. -/
def assignSpec {N K : ℕ} [NeZero K] (C : Fin N → Fin N → ℝ) (Lambda : Fin N → Fin K → ℝ)
    (j : Fin N) : Fin K :=
  np_argmax fun k => gammaScoreSpec C Lambda k j

/-- The hard-assignment matrix the specification prescribes: `Gamma[s, j] = 1` for `s`
the argmax of `gammaScoreSpec` at column `j`, all other entries at the floor. -/
def updateGammaSpec {N K : ℕ} [NeZero K] (C : Fin N → Fin N → ℝ)
    (Lambda : Fin N → Fin K → ℝ) : Fin K → Fin N → ℝ :=
  fun k j => if k = assignSpec C Lambda j then 1 else 1e-16

/-- The specification's description of the likelihood: a single sum over all index
triples `(i, j, k)` of `C[i,j] * Gamma[k,j] * log(max(Lambda[i,k], epsilon))`. -/
def likelihoodSpec {N K : ℕ} (Lambda : Fin N → Fin K → ℝ) (Gamma : Fin K → Fin N → ℝ)
    (C : Fin N → Fin N → ℝ) : ℝ :=
  ∑ p : Fin N × Fin N × Fin K,
    C p.1 p.2.1 * Gamma p.2.2 p.2.1 * Real.log (max (Lambda p.1 p.2.2) 1e-16)

/-- The specification's formula for the per-iteration `Lambda` update:
`raw[k,i] = sum_j C[i,j] * Gamma[k,j]` and `Lambda[i,k] = raw[k,i] / sum_i' raw[k,i']`. -/
def updateLambdaSpec {N K : ℕ} (C : Fin N → Fin N → ℝ) (Gamma : Fin K → Fin N → ℝ) :
    Fin N → Fin K → ℝ :=
  fun i k => (∑ j, C i j * Gamma k j) / ∑ x, ∑ j, C x j * Gamma k j

/-- A concrete non-symmetric count matrix, `[[1, 0], [2, 0]]`, used to compare the hard
assignment the source computes with the one the specification prescribes. -/
def Cbug : Fin 2 → Fin 2 → ℝ :=
  fun i j => if j = 0 then (if i = 0 then 1 else 2) else 0

/-- A concrete column-stochastic `Lambda`, `[[9/10, 1/10], [1/10, 9/10]]`.  Its columns
sum to 1, so it is a fixed point of `initLambda` and hence a reachable initial value of
`Lambda` (the random sample draws in `[0, 1)`). -/
def Lbug : Fin 2 → Fin 2 → ℝ :=
  fun i k => if i = k then 9/10 else 1/10

/-- A concrete one-state count matrix `[[1]]` for instantiating the general theorems. -/
def Cone : Fin 1 → Fin 1 → ℝ := fun _ _ => 1

/-- A concrete one-entry random sample `[[1/2]]` for instantiating the general
theorems. -/
def Rhalf : Fin 1 → Fin 1 → ℝ := fun _ _ => 1/2

/-! Properties of the `np.argmax` embedding: the fold returns an index attaining the
maximum, and every strictly smaller index has a strictly smaller value (first-occurrence
tie-breaking). -/

lemma argStep_left_le {K : ℕ} (f : Fin K → ℝ) (b a : Fin K) : f b ≤ f (argStep f b a) := by
  unfold argStep
  split
  · exact le_of_lt (by assumption)
  · exact le_rfl

lemma argStep_right_le {K : ℕ} (f : Fin K → ℝ) (b a : Fin K) : f a ≤ f (argStep f b a) := by
  unfold argStep
  split
  · exact le_rfl
  · exact le_of_not_lt (by assumption)

lemma foldl_argStep_init_le {K : ℕ} (f : Fin K → ℝ) (l : List (Fin K)) (b : Fin K) :
    f b ≤ f (l.foldl (argStep f) b) := by
  induction l generalizing b with
  | nil => simp
  | cons a l ih =>
    rw [List.foldl_cons]
    exact le_trans (argStep_left_le f b a) (ih _)

lemma foldl_argStep_mem_le {K : ℕ} (f : Fin K → ℝ) (l : List (Fin K)) (b : Fin K) :
    ∀ x ∈ l, f x ≤ f (l.foldl (argStep f) b) := by
  induction l generalizing b with
  | nil => simp
  | cons a l ih =>
    intro x hx
    rw [List.foldl_cons]
    rcases List.mem_cons.mp hx with rfl | hx'
    · exact le_trans (argStep_right_le f b x) (foldl_argStep_init_le f l _)
    · exact ih _ x hx'

lemma foldl_argStep_mem_strict {K : ℕ} (f : Fin K → ℝ) (l : List (Fin K)) (b : Fin K) :
    l.foldl (argStep f) b = b ∨
      (l.foldl (argStep f) b ∈ l ∧ f b < f (l.foldl (argStep f) b)) := by
  induction l generalizing b with
  | nil => exact Or.inl rfl
  | cons a l ih =>
    rw [List.foldl_cons]
    rcases ih (argStep f b a) with h | ⟨hmem, hlt⟩
    · rw [h]
      unfold argStep
      split
      · exact Or.inr ⟨List.mem_cons_self _ _, by assumption⟩
      · exact Or.inl rfl
    · exact Or.inr ⟨List.mem_cons_of_mem _ hmem,
        lt_of_le_of_lt (argStep_left_le f b a) hlt⟩

lemma foldl_argStep_first {K : ℕ} (f : Fin K → ℝ) (l : List (Fin K)) (b : Fin K)
    (hb : ∀ x ∈ l, b ≤ x) (hl : l.Pairwise (· ≤ ·)) :
    ∀ x ∈ l, x < l.foldl (argStep f) b → f x < f (l.foldl (argStep f) b) := by
  induction l generalizing b with
  | nil => simp
  | cons a l ih =>
    intro x hx hlt
    rw [List.foldl_cons] at hlt ⊢
    have hpair := List.pairwise_cons.mp hl
    have hb' : ∀ y ∈ l, argStep f b a ≤ y := by
      intro y hy
      unfold argStep
      split
      · exact hpair.1 y hy
      · exact hb y (List.mem_cons_of_mem _ hy)
    rcases List.mem_cons.mp hx with rfl | hx'
    · rcases foldl_argStep_mem_strict f l (argStep f b x) with h | ⟨_, hstrict⟩
      · rw [h] at hlt ⊢
        unfold argStep at hlt ⊢
        by_cases hba : f b < f x
        · rw [if_pos hba] at hlt
          exact absurd hlt (lt_irrefl _)
        · rw [if_neg hba] at hlt
          exact absurd hlt (not_lt.mpr (hb x (List.mem_cons_self _ _)))
      · exact lt_of_le_of_lt (argStep_right_le f b x) hstrict
    · exact ih _ hb' hpair.2 x hx' hlt

lemma np_argmax_le {K : ℕ} [NeZero K] (f : Fin K → ℝ) (j : Fin K) :
    f j ≤ f (np_argmax f) :=
  foldl_argStep_mem_le f (List.finRange K) _ j (List.mem_finRange j)

lemma np_argmax_first {K : ℕ} [NeZero K] (f : Fin K → ℝ) (j : Fin K)
    (h : j < np_argmax f) : f j < f (np_argmax f) :=
  foldl_argStep_first f (List.finRange K) _
    (fun x _ => by simp [Fin.le_def])
    (List.pairwise_le_finRange K) j (List.mem_finRange j) h

lemma np_argmax_one (f : Fin 1 → ℝ) : np_argmax f = 0 :=
  Subsingleton.elim _ _

lemma np_argmax_two_eq_zero (f : Fin 2 → ℝ) (h : f 1 ≤ f 0) : np_argmax f = 0 := by
  by_contra hne
  have hval : (np_argmax f : ℕ) = 1 := by
    have h2 := (np_argmax f).isLt
    have h0 : (np_argmax f : ℕ) ≠ 0 := fun hv => hne (Fin.ext hv)
    omega
  have h01 : (0 : Fin 2) < np_argmax f := by
    rw [Fin.lt_def, hval]
    norm_num
  have heq : np_argmax f = 1 := by
    rw [Fin.ext_iff]
    simpa using hval
  have := np_argmax_first f 0 h01
  rw [heq] at this
  exact absurd this (not_lt.mpr h)

lemma np_argmax_two_eq_one (f : Fin 2 → ℝ) (h : f 0 < f 1) : np_argmax f = 1 := by
  by_contra hne
  have hval : (np_argmax f : ℕ) = 0 := by
    have h2 := (np_argmax f).isLt
    have h1 : (np_argmax f : ℕ) ≠ 1 := fun hv => hne (Fin.ext hv)
    omega
  have heq : np_argmax f = 0 := by
    rw [Fin.ext_iff]
    simpa using hval
  have := np_argmax_le f 1
  rw [heq] at this
  exact absurd h (not_lt.mpr this)

/-! Basic facts about the hard-assignment matrix. -/

lemma updateGamma_assign {N K : ℕ} [NeZero K] (C : Fin N → Fin N → ℝ)
    (Lambda : Fin N → Fin K → ℝ) (i : Fin N) :
    updateGamma C Lambda (assign C Lambda i) i = 1 :=
  if_pos rfl

lemma updateGamma_of_ne {N K : ℕ} [NeZero K] (C : Fin N → Fin N → ℝ)
    (Lambda : Fin N → Fin K → ℝ) {k : Fin K} {i : Fin N} (h : k ≠ assign C Lambda i) :
    updateGamma C Lambda k i = 1e-16 :=
  if_neg h

lemma updateGamma_pos {N K : ℕ} [NeZero K] (C : Fin N → Fin N → ℝ)
    (Lambda : Fin N → Fin K → ℝ) (k : Fin K) (i : Fin N) :
    0 < updateGamma C Lambda k i := by
  unfold updateGamma
  split
  · norm_num
  · norm_num

lemma updateGamma_k_one {N : ℕ} (C : Fin N → Fin N → ℝ) (Lambda : Fin N → Fin 1 → ℝ) :
    updateGamma C Lambda = fun _ _ => (1 : ℝ) := by
  funext k i
  unfold updateGamma
  rw [if_pos (Subsingleton.elim _ _)]

/-! Unfolding equations for the estimation loop. -/

lemma estimate_loop_zero {N K : ℕ} [NeZero K] {C : Fin N → Fin N → ℝ} {conv : ℝ} {mi : ℕ}
    {Lambda : Fin N → Fin K → ℝ} {Gamma : Fin K → Fin N → ℝ} {lls : List ℝ} {δ : ℝ} :
    estimate_loop C conv mi 0 Lambda Gamma lls δ = ⟨Lambda, Gamma, lls, none⟩ :=
  rfl

lemma estimate_loop_stop {N K : ℕ} [NeZero K] {C : Fin N → Fin N → ℝ} {conv : ℝ} {mi fuel : ℕ}
    {Lambda : Fin N → Fin K → ℝ} {Gamma : Fin K → Fin N → ℝ} {lls : List ℝ} {δ : ℝ}
    (h : ¬ conv < δ) :
    estimate_loop C conv mi (fuel + 1) Lambda Gamma lls δ = ⟨Lambda, Gamma, lls, none⟩ := by
  rw [estimate_loop, if_neg h]

lemma estimate_loop_go {N K : ℕ} [NeZero K] {C : Fin N → Fin N → ℝ} {conv : ℝ} {mi fuel : ℕ}
    {Lambda : Fin N → Fin K → ℝ} {Gamma : Fin K → Fin N → ℝ} {lls : List ℝ} {δ : ℝ}
    (h : conv < δ) :
    estimate_loop C conv mi (fuel + 1) Lambda Gamma lls δ =
      if mi < (lls ++ [dbmr_likelihood (updateLambda C Gamma)
          (updateGamma C (updateLambda C Gamma)) C]).length then
        ⟨updateLambda C Gamma, updateGamma C (updateLambda C Gamma),
          lls ++ [dbmr_likelihood (updateLambda C Gamma)
            (updateGamma C (updateLambda C Gamma)) C],
          some ⟨conv, pyDelta lls (dbmr_likelihood (updateLambda C Gamma)
            (updateGamma C (updateLambda C Gamma)) C), mi⟩⟩
      else
        estimate_loop C conv mi fuel (updateLambda C Gamma)
          (updateGamma C (updateLambda C Gamma))
          (lls ++ [dbmr_likelihood (updateLambda C Gamma)
            (updateGamma C (updateLambda C Gamma)) C])
          (pyDelta lls (dbmr_likelihood (updateLambda C Gamma)
            (updateGamma C (updateLambda C Gamma)) C)) := by
  rw [estimate_loop, if_pos h]

/-! Structural lemmas about the estimation loop: length bounds, fuel stability, the shape
of the returned assignment matrix, and the non-convergence diagnostic. -/

section LoopLemmas

variable {N K : ℕ} [NeZero K] (C : Fin N → Fin N → ℝ) (conv : ℝ) (mi : ℕ)

lemma estimate_loop_length_le (fuel : ℕ) :
    ∀ (Lambda : Fin N → Fin K → ℝ) (Gamma : Fin K → Fin N → ℝ) (lls : List ℝ) (δ : ℝ),
      lls.length ≤ mi →
      (estimate_loop C conv mi fuel Lambda Gamma lls δ).lls.length ≤ mi + 1 := by
  induction fuel with
  | zero =>
    intro Lambda Gamma lls δ h
    rw [estimate_loop_zero]
    exact Nat.le_succ_of_le h
  | succ fuel ih =>
    intro Lambda Gamma lls δ h
    by_cases hc : conv < δ
    · rw [estimate_loop_go hc]
      split
      · simpa using h
      · exact ih _ _ _ _ (by simp at *; omega)
    · rw [estimate_loop_stop hc]
      exact Nat.le_succ_of_le h

lemma estimate_loop_length_mono (fuel : ℕ) :
    ∀ (Lambda : Fin N → Fin K → ℝ) (Gamma : Fin K → Fin N → ℝ) (lls : List ℝ) (δ : ℝ),
      lls.length ≤ (estimate_loop C conv mi fuel Lambda Gamma lls δ).lls.length := by
  induction fuel with
  | zero =>
    intro Lambda Gamma lls δ
    rw [estimate_loop_zero]
  | succ fuel ih =>
    intro Lambda Gamma lls δ
    by_cases hc : conv < δ
    · rw [estimate_loop_go hc]
      split
      · simp
      · exact le_trans (by simp) (ih _ _ _ _)
    · rw [estimate_loop_stop hc]

lemma estimate_loop_fuel_congr (fuel1 : ℕ) :
    ∀ (fuel2 : ℕ) (Lambda : Fin N → Fin K → ℝ) (Gamma : Fin K → Fin N → ℝ)
      (lls : List ℝ) (δ : ℝ),
      lls.length ≤ mi → mi < fuel1 + lls.length → mi < fuel2 + lls.length →
      estimate_loop C conv mi fuel1 Lambda Gamma lls δ =
        estimate_loop C conv mi fuel2 Lambda Gamma lls δ := by
  induction fuel1 with
  | zero =>
    intro fuel2 Lambda Gamma lls δ h1 h2 h3
    omega
  | succ fuel1 ih =>
    intro fuel2 Lambda Gamma lls δ h1 h2 h3
    cases fuel2 with
    | zero => omega
    | succ fuel2 =>
      by_cases hc : conv < δ
      · rw [estimate_loop_go hc, estimate_loop_go hc]
        by_cases hb : mi < (lls ++ [dbmr_likelihood (updateLambda C Gamma)
            (updateGamma C (updateLambda C Gamma)) C]).length
        · rw [if_pos hb, if_pos hb]
        · rw [if_neg hb, if_neg hb]
          refine ih fuel2 _ _ _ _ (by simp at *; omega) (by simp; omega) (by simp; omega)
      · rw [estimate_loop_stop hc, estimate_loop_stop hc]

lemma estimate_loop_gamma_image (fuel : ℕ) :
    ∀ (Lambda : Fin N → Fin K → ℝ) (Gamma : Fin K → Fin N → ℝ) (lls : List ℝ) (δ : ℝ),
      (∃ L0, Gamma = updateGamma C L0) →
      ∃ L1, (estimate_loop C conv mi fuel Lambda Gamma lls δ).Gamma = updateGamma C L1 := by
  induction fuel with
  | zero =>
    intro Lambda Gamma lls δ h
    rw [estimate_loop_zero]
    exact h
  | succ fuel ih =>
    intro Lambda Gamma lls δ h
    by_cases hc : conv < δ
    · rw [estimate_loop_go hc]
      split
      · exact ⟨updateLambda C Gamma, rfl⟩
      · exact ih _ _ _ _ ⟨updateLambda C Gamma, rfl⟩
    · rw [estimate_loop_stop hc]
      exact h

lemma estimate_loop_msg_spec (fuel : ℕ) :
    ∀ (Lambda : Fin N → Fin K → ℝ) (Gamma : Fin K → Fin N → ℝ) (lls : List ℝ) (δ : ℝ),
      lls.length ≤ mi →
      ((estimate_loop C conv mi fuel Lambda Gamma lls δ).msg = none →
        (estimate_loop C conv mi fuel Lambda Gamma lls δ).lls.length ≤ mi) ∧
      (∀ d, (estimate_loop C conv mi fuel Lambda Gamma lls δ).msg = some d →
        d.conv = conv ∧ d.maxIter = mi ∧
        (estimate_loop C conv mi fuel Lambda Gamma lls δ).lls.length = mi + 1 ∧
        ∃ pre ll, (estimate_loop C conv mi fuel Lambda Gamma lls δ).lls = pre ++ [ll] ∧
          d.delta = pyDelta pre ll) := by
  induction fuel with
  | zero =>
    intro Lambda Gamma lls δ h
    rw [estimate_loop_zero]
    refine ⟨fun _ => h, fun d hd => by simp at hd⟩
  | succ fuel ih =>
    intro Lambda Gamma lls δ h
    by_cases hc : conv < δ
    · rw [estimate_loop_go hc]
      by_cases hb : mi < (lls ++ [dbmr_likelihood (updateLambda C Gamma)
          (updateGamma C (updateLambda C Gamma)) C]).length
      · rw [if_pos hb]
        refine ⟨fun hnone => by simp at hnone, fun d hd => ?_⟩
        have hd' : d = ⟨conv, pyDelta lls (dbmr_likelihood (updateLambda C Gamma)
            (updateGamma C (updateLambda C Gamma)) C), mi⟩ := by
          simpa using hd.symm
        subst hd'
        refine ⟨rfl, rfl, by simp at *; omega, lls, _, rfl, rfl⟩
      · rw [if_neg hb]
        exact ih _ _ _ _ (by simp at *; omega)
    · rw [estimate_loop_stop hc]
      refine ⟨fun _ => h, fun d hd => by simp at hd⟩

end LoopLemmas

/-! Column-stochasticity of the `Lambda` updates. -/

lemma initLambda_colsum {N K : ℕ} (R : Fin N → Fin K → ℝ) (k : Fin K)
    (hR : ∑ x, R x k ≠ 0) : ∑ i, initLambda R i k = 1 := by
  unfold initLambda
  rw [← Finset.sum_div]
  exact div_self hR

lemma updateLambda_colsum {N K : ℕ} (C : Fin N → Fin N → ℝ)
    (hC : ∀ i j, 0 ≤ C i j) (hCpos : 0 < ∑ i, ∑ j, C i j)
    (Gamma : Fin K → Fin N → ℝ) (hG : ∀ k j, 0 < Gamma k j) (k : Fin K) :
    ∑ i, updateLambda C Gamma i k = 1 := by
  have hnonneg : ∀ x, 0 ≤ lambdaUnnorm C Gamma k x := fun x =>
    Finset.sum_nonneg fun j _ => mul_nonneg (hC x j) (le_of_lt (hG k j))
  have hex : ∃ x j, 0 < C x j := by
    by_contra hno
    push_neg at hno
    have : ∑ i, ∑ j, C i j ≤ 0 :=
      Finset.sum_nonpos fun i _ => Finset.sum_nonpos fun j _ => hno i j
    exact absurd hCpos (not_lt.mpr this)
  obtain ⟨x0, j0, hx0⟩ := hex
  have hpos : 0 < ∑ x, lambdaUnnorm C Gamma k x := by
    have h1 : 0 < lambdaUnnorm C Gamma k x0 := by
      unfold lambdaUnnorm
      exact Finset.sum_pos' (fun j _ => mul_nonneg (hC x0 j) (le_of_lt (hG k j)))
        ⟨j0, Finset.mem_univ _, mul_pos hx0 (hG k j0)⟩
    exact Finset.sum_pos' (fun x _ => hnonneg x) ⟨x0, Finset.mem_univ _, h1⟩
  unfold updateLambda
  rw [← Finset.sum_div]
  exact div_self (ne_of_gt hpos)

lemma estimate_loop_lambda_colsum {N K : ℕ} [NeZero K] (C : Fin N → Fin N → ℝ)
    (conv : ℝ) (mi : ℕ) (hC : ∀ i j, 0 ≤ C i j) (hCpos : 0 < ∑ i, ∑ j, C i j) (fuel : ℕ) :
    ∀ (Lambda : Fin N → Fin K → ℝ) (Gamma : Fin K → Fin N → ℝ) (lls : List ℝ) (δ : ℝ),
      (∀ k, ∑ i, Lambda i k = 1) → (∀ k j, 0 < Gamma k j) →
      ∀ k, ∑ i, (estimate_loop C conv mi fuel Lambda Gamma lls δ).Lambda i k = 1 := by
  induction fuel with
  | zero =>
    intro Lambda Gamma lls δ hL hG k
    rw [estimate_loop_zero]
    exact hL k
  | succ fuel ih =>
    intro Lambda Gamma lls δ hL hG k
    by_cases hc : conv < δ
    · rw [estimate_loop_go hc]
      split
      · exact updateLambda_colsum C hC hCpos Gamma hG k
      · exact ih _ _ _ _ (updateLambda_colsum C hC hCpos Gamma hG)
          (updateGamma_pos C _) k
    · rw [estimate_loop_stop hc]
      exact hL k

/-! Concrete evaluations at the matrices `Cbug` and `Lbug`. -/

lemma max_ninety : max (9/10 : ℝ) 1e-16 = 9/10 := by norm_num

lemma max_tenth : max (1/10 : ℝ) 1e-16 = 1/10 := by norm_num

lemma log_tenth_lt : Real.log (1/10 : ℝ) < Real.log (9/10 : ℝ) :=
  Real.log_lt_log (by norm_num) (by norm_num)

lemma gammaScore_bug_zero : gammaScore Cbug Lbug 0 0 = Real.log (9/10) := by
  unfold gammaScore Cbug Lbug
  rw [Fin.sum_univ_two]
  norm_num [max_ninety]

lemma gammaScore_bug_one : gammaScore Cbug Lbug 1 0 = Real.log (1/10) := by
  unfold gammaScore Cbug Lbug
  rw [Fin.sum_univ_two]
  norm_num [max_tenth]

lemma gammaScoreSpec_bug_zero :
    gammaScoreSpec Cbug Lbug 0 0 = Real.log (9/10) + 2 * Real.log (1/10) := by
  unfold gammaScoreSpec Cbug Lbug
  rw [Fin.sum_univ_two]
  norm_num [max_ninety, max_tenth]

lemma gammaScoreSpec_bug_one :
    gammaScoreSpec Cbug Lbug 1 0 = Real.log (1/10) + 2 * Real.log (9/10) := by
  unfold gammaScoreSpec Cbug Lbug
  rw [Fin.sum_univ_two]
  norm_num [max_ninety, max_tenth]

lemma assign_bug : assign Cbug Lbug 0 = 0 := by
  unfold assign
  apply np_argmax_two_eq_zero
  show gammaScore Cbug Lbug 1 0 ≤ gammaScore Cbug Lbug 0 0
  rw [gammaScore_bug_zero, gammaScore_bug_one]
  exact le_of_lt log_tenth_lt

lemma assignSpec_bug : assignSpec Cbug Lbug 0 = 1 := by
  unfold assignSpec
  apply np_argmax_two_eq_one
  show gammaScoreSpec Cbug Lbug 0 0 < gammaScoreSpec Cbug Lbug 1 0
  rw [gammaScoreSpec_bug_zero, gammaScoreSpec_bug_one]
  linarith [log_tenth_lt]

lemma dbmr_likelihood_bug (Gamma : Fin 2 → Fin 2 → ℝ) :
    dbmr_likelihood Lbug Gamma Cbug =
      (Gamma 0 0 * Real.log (9/10) + Gamma 1 0 * Real.log (1/10)) +
        2 * (Gamma 0 0 * Real.log (1/10) + Gamma 1 0 * Real.log (9/10)) := by
  unfold dbmr_likelihood Cbug Lbug
  simp only [Fin.sum_univ_two]
  norm_num [max_ninety, max_tenth]
  ring

/-- C1: the claim states that for each observed state `j` the assignment score of latent
state `k` is `sum_i C[i,j] * log(max(Lambda[i,k], 1e-16))` and that
`Gamma[argmax_k score, j] = 1`.  The source (src/dbmr.py lines 38-39 and 49-50) instead
computes `sum_j C[i,j] * log(max(Lambda[j,k], 1e-16))` — it contracts the second index of
`C` rather than the first, i.e. it applies the claimed formula to the transpose of `C`.
This theorem exhibits the divergence at the concrete reachable input `C = Cbug`,
`Lambda = Lbug` (first conjunct: `Lbug` is a fixed point of the initialization, hence a
possible initial `Lambda`): the claim demands `Gamma[1,0] = 1`, the source produces the
floor value there; moreover the source's assignment scores strictly lower on the
source's own objective `dbmr_likelihood` than the claimed assignment, so the claimed
formula (not the code) is the one consistent with the likelihood being maximized — a
transpose slip in the code. -/
theorem gamma_assignment_contracts_wrong_index :
    initLambda Lbug = Lbug ∧
    updateGamma Cbug Lbug 1 0 = 1e-16 ∧
    updateGammaSpec Cbug Lbug 1 0 = 1 ∧
    dbmr_likelihood Lbug (updateGamma Cbug Lbug) Cbug <
      dbmr_likelihood Lbug (updateGammaSpec Cbug Lbug) Cbug := by
  have hinit : initLambda Lbug = Lbug := by
    funext i k
    unfold initLambda Lbug
    fin_cases k <;> rw [Fin.sum_univ_two] <;> norm_num
  have hg00 : updateGamma Cbug Lbug 0 0 = 1 := by
    have h := updateGamma_assign Cbug Lbug 0
    rwa [assign_bug] at h
  have hg10 : updateGamma Cbug Lbug 1 0 = 1e-16 :=
    updateGamma_of_ne Cbug Lbug (by rw [assign_bug]; decide)
  have hs00 : updateGammaSpec Cbug Lbug 0 0 = 1e-16 := by
    unfold updateGammaSpec
    rw [assignSpec_bug, if_neg (by decide)]
  have hs10 : updateGammaSpec Cbug Lbug 1 0 = 1 := by
    unfold updateGammaSpec
    rw [assignSpec_bug, if_pos rfl]
  refine ⟨hinit, hg10, hs10, ?_⟩
  rw [dbmr_likelihood_bug, dbmr_likelihood_bug, hg00, hg10, hs00, hs10]
  have heps : (1e-16 : ℝ) < 1 := by norm_num
  nlinarith [log_tenth_lt, heps]

/-- C2 (confirmed): in every iteration the new `Lambda` is computed from the current
`Gamma` and `C` as `raw[k,i] = sum_j C[i,j] * Gamma[k,j]` followed by
`Lambda[i,k] = raw[k,i] / sum_i' raw[k,i']` (each row of `raw` normalized, then
transposed).  `updateLambda` is the embedding of src/dbmr.py lines 46-47, invoked by
`estimate_loop` on every pass; `updateLambdaSpec` is written from the claim's words. -/
theorem lambda_update_matches_spec {N K : ℕ} (C : Fin N → Fin N → ℝ)
    (Gamma : Fin K → Fin N → ℝ) :
    (∀ k i, lambdaUnnorm C Gamma k i = ∑ j, C i j * Gamma k j) ∧
      updateLambda C Gamma = updateLambdaSpec C Gamma :=
  ⟨fun _ _ => rfl, rfl⟩

/-- C3 (confirmed): `dbmr_likelihood` returns exactly the scalar sum over all index
triples `(i, j, k)` of `C[i,j] * Gamma[k,j] * log(max(Lambda[i,k], 1e-16))`, flooring
every `Lambda` entry at `1e-16` before the logarithm.  `dbmr_likelihood` is the
embedding of src/dbmr.py lines 8-9; `likelihoodSpec` is the claim's single sum over the
product index set.  (The embedding is a pure function, so the absence of side effects on
the arguments is inherent.) -/
theorem likelihood_matches_spec {N K : ℕ} (Lambda : Fin N → Fin K → ℝ)
    (Gamma : Fin K → Fin N → ℝ) (C : Fin N → Fin N → ℝ) :
    dbmr_likelihood Lambda Gamma C = likelihoodSpec Lambda Gamma C := by
  unfold dbmr_likelihood likelihoodSpec
  simp [Fintype.sum_prod_type]

/-- C4 (confirmed): when `C` is nonnegative with positive total mass (for nonnegative
`C` and the always-positive `Gamma` entries this is exactly the condition that no
per-iteration normalization denominator vanishes) and the initial column sums of the
random sample are nonzero, every column of `Lambda` sums to 1 after initialization,
after every update from a positive-entried `Gamma` (which every `Gamma` arising in the
loop is), and in the returned `Lambda`. -/
theorem lambda_columns_sum_one {N K : ℕ} [NeZero K] (C : Fin N → Fin N → ℝ)
    (R : Fin N → Fin K → ℝ) (conv : ℝ) (max_iter : ℕ)
    (hC : ∀ i j, 0 ≤ C i j) (hCpos : 0 < ∑ i, ∑ j, C i j)
    (hR : ∀ k, ∑ x, R x k ≠ 0) :
    (∀ k, ∑ i, initLambda R i k = 1) ∧
    (∀ Gamma : Fin K → Fin N → ℝ, (∀ k j, 0 < Gamma k j) →
      ∀ k, ∑ i, updateLambda C Gamma i k = 1) ∧
    (∀ k, ∑ i, (estimate_dbmr C R conv max_iter).Lambda i k = 1) := by
  refine ⟨fun k => initLambda_colsum R k (hR k),
    fun Gamma hG k => updateLambda_colsum C hC hCpos Gamma hG k, fun k => ?_⟩
  unfold estimate_dbmr
  exact estimate_loop_lambda_colsum C conv max_iter hC hCpos (max_iter + 1) _ _ _ _
    (fun k' => initLambda_colsum R k' (hR k')) (updateGamma_pos C _) k

/-- Witness for `lambda_columns_sum_one` at the concrete input `Cone`, `Rhalf`. -/
theorem lambda_columns_sum_one_witness :
    ((∀ i j, (0:ℝ) ≤ Cone i j) ∧ (0 < ∑ i, ∑ j, Cone i j) ∧
      (∀ k, ∑ x, Rhalf x k ≠ 0)) ∧
    ((∀ k, ∑ i, initLambda Rhalf i k = 1) ∧
      (∀ Gamma : Fin 1 → Fin 1 → ℝ, (∀ k j, 0 < Gamma k j) →
        ∀ k, ∑ i, updateLambda Cone Gamma i k = 1) ∧
      (∀ k, ∑ i, (estimate_dbmr Cone Rhalf 1e-16 10).Lambda i k = 1)) :=
  ⟨⟨fun _ _ => by norm_num [Cone], by simp [Cone], fun _ => by norm_num [Rhalf]⟩,
    lambda_columns_sum_one Cone Rhalf 1e-16 10 (fun _ _ => by norm_num [Cone])
      (by simp [Cone]) (fun _ => by norm_num [Rhalf])⟩

/-- C5 (confirmed): every column of the hard-assignment matrix produced by the
assignment step (used at initialization and on every pass of the loop) has exactly one
entry equal to 1, all other entries equal to the floor `1e-16`; in particular this holds
for the `Gamma` returned by `estimate_dbmr`. -/
theorem gamma_one_hot_columns {N K : ℕ} [NeZero K] (C : Fin N → Fin N → ℝ)
    (R : Fin N → Fin K → ℝ) (conv : ℝ) (max_iter : ℕ) :
    (∀ (Lambda : Fin N → Fin K → ℝ) (i : Fin N), ∃ s,
      updateGamma C Lambda s i = 1 ∧ ∀ k, k ≠ s → updateGamma C Lambda k i = 1e-16) ∧
    (∀ i, ∃ s, (estimate_dbmr C R conv max_iter).Gamma s i = 1 ∧
      ∀ k, k ≠ s → (estimate_dbmr C R conv max_iter).Gamma k i = 1e-16) := by
  have hgen : ∀ (Lambda : Fin N → Fin K → ℝ) (i : Fin N), ∃ s,
      updateGamma C Lambda s i = 1 ∧ ∀ k, k ≠ s → updateGamma C Lambda k i = 1e-16 :=
    fun Lambda i => ⟨assign C Lambda i, updateGamma_assign C Lambda i,
      fun k hk => updateGamma_of_ne C Lambda hk⟩
  refine ⟨hgen, fun i => ?_⟩
  obtain ⟨L1, hL1⟩ := estimate_loop_gamma_image C conv max_iter (max_iter + 1)
    (initLambda R) (updateGamma C (initLambda R)) [] 1 ⟨initLambda R, rfl⟩
  unfold estimate_dbmr
  rw [hL1]
  exact hgen L1 i

/-- Witness for `gamma_one_hot_columns` at the concrete input `Cone`, `Rhalf`. -/
theorem gamma_one_hot_columns_witness :
    (∀ (Lambda : Fin 1 → Fin 1 → ℝ) (i : Fin 1), ∃ s,
      updateGamma Cone Lambda s i = 1 ∧ ∀ k, k ≠ s → updateGamma Cone Lambda k i = 1e-16) ∧
    (∀ i, ∃ s, (estimate_dbmr Cone Rhalf 1e-16 10).Gamma s i = 1 ∧
      ∀ k, k ≠ s → (estimate_dbmr Cone Rhalf 1e-16 10).Gamma k i = 1e-16) :=
  gamma_one_hot_columns Cone Rhalf 1e-16 10

lemma estimate_loop_lls_ne_nil {N K : ℕ} [NeZero K] (C : Fin N → Fin N → ℝ) (conv : ℝ)
    (mi fuel : ℕ) (Lambda : Fin N → Fin K → ℝ) (Gamma : Fin K → Fin N → ℝ)
    (lls : List ℝ) (δ : ℝ) (hc : conv < δ) :
    (estimate_loop C conv mi (fuel + 1) Lambda Gamma lls δ).lls ≠ [] := by
  rw [estimate_loop_go hc]
  split
  · simp
  · apply List.ne_nil_of_length_pos
    refine lt_of_lt_of_le ?_ (estimate_loop_length_mono C conv mi fuel _ _ _ _)
    simp

/-- C6 counterexample: the claim asserts a non-empty `lls` trace for every valid input
(`C` square nonnegative, `K ≥ 1`, `max_iter ≥ 1`, `convergence ≥ 0`), but at the valid
input `C = Cone = [[1]]`, `K = 1`, `convergence = 1`, `max_iter = 1` the returned trace
is empty: `delta_ll` starts at `1` and the strict test `delta_ll > convergence` fails
immediately, so the loop body never runs. -/
theorem lls_empty_at_convergence_one :
    (estimate_dbmr Cone Rhalf 1 1).lls = [] := by
  unfold estimate_dbmr
  rw [estimate_loop_stop (by norm_num)]

/-- C6 amended: the `lls` trace returned by `estimate_dbmr` always has length at most
`max_iter + 1`, and it is empty exactly when `convergence ≥ 1` (for `convergence < 1`
the initial `delta_ll = 1` makes the loop run at least once, so the trace is
non-empty). -/
theorem lls_length_le_and_empty_iff {N K : ℕ} [NeZero K] (C : Fin N → Fin N → ℝ)
    (R : Fin N → Fin K → ℝ) (conv : ℝ) (max_iter : ℕ) :
    (estimate_dbmr C R conv max_iter).lls.length ≤ max_iter + 1 ∧
      ((estimate_dbmr C R conv max_iter).lls = [] ↔ 1 ≤ conv) := by
  unfold estimate_dbmr
  refine ⟨estimate_loop_length_le C conv max_iter (max_iter + 1) _ _ _ _ (by simp),
    ?_, ?_⟩
  · intro hempty
    by_contra hge
    push_neg at hge
    exact estimate_loop_lls_ne_nil C conv max_iter max_iter _ _ [] 1 hge hempty
  · intro h1le
    rw [estimate_loop_stop (not_lt.mpr h1le)]

/-- Witness for `lls_length_le_and_empty_iff` at the concrete input `Cone`, `Rhalf`. -/
theorem lls_length_le_and_empty_iff_witness :
    (estimate_dbmr Cone Rhalf 1e-16 3).lls.length ≤ 3 + 1 ∧
      ((estimate_dbmr Cone Rhalf 1e-16 3).lls = [] ↔ 1 ≤ (1e-16 : ℝ)) :=
  lls_length_le_and_empty_iff Cone Rhalf 1e-16 3

/-- C8 (confirmed): when the number of recorded likelihoods exceeds `max_iter`, the
estimator does not fail: the result's diagnostic is present exactly in that case, and it
carries the convergence threshold, `max_iter`, and the actual last delta (the absolute
difference of the final two trace entries), while the current `Lambda`, `Gamma`, `lls`
are returned as on any other termination path (the diagnostic is the embedding of the
`print` at src/dbmr.py line 58, followed by `break` and the normal `return`). -/
theorem nonconvergence_diagnostic {N K : ℕ} [NeZero K] (C : Fin N → Fin N → ℝ)
    (R : Fin N → Fin K → ℝ) (conv : ℝ) (max_iter : ℕ) (hmi : 1 ≤ max_iter) :
    ((estimate_dbmr C R conv max_iter).msg.isSome ↔
      max_iter < (estimate_dbmr C R conv max_iter).lls.length) ∧
    (∀ d, (estimate_dbmr C R conv max_iter).msg = some d →
      d.conv = conv ∧ d.maxIter = max_iter ∧
      (estimate_dbmr C R conv max_iter).lls.length = max_iter + 1 ∧
      ∃ pre prev ll, (estimate_dbmr C R conv max_iter).lls = pre ++ [prev, ll] ∧
        d.delta = |ll - prev|) := by
  have hspec := estimate_loop_msg_spec C conv max_iter (max_iter + 1)
    (initLambda R) (updateGamma C (initLambda R)) [] 1 (by simp)
  unfold estimate_dbmr
  constructor
  · constructor
    · intro hs
      obtain ⟨d, hd⟩ := Option.isSome_iff_exists.mp hs
      have h3 := (hspec.2 d hd).2.2.1
      omega
    · intro hlen
      rcases hmsg : (estimate_loop C conv max_iter (max_iter + 1) (initLambda R)
          (updateGamma C (initLambda R)) [] 1).msg with _ | d
      · have := hspec.1 hmsg
        omega
      · rfl
  · intro d hd
    obtain ⟨h1, h2, h3, pre, ll, hlls, hdelta⟩ := hspec.2 d hd
    refine ⟨h1, h2, h3, ?_⟩
    rcases pre.eq_nil_or_concat' with hnil | ⟨pre2, prev, hcat⟩
    · subst hnil
      rw [hlls] at h3
      simp at h3
      omega
    · subst hcat
      refine ⟨pre2, prev, ll, by rw [hlls]; simp, ?_⟩
      rw [hdelta]
      unfold pyDelta
      rw [List.getLast?_concat]

/-- Witness for `nonconvergence_diagnostic` at the concrete input `Cone`, `Rhalf`. -/
theorem nonconvergence_diagnostic_witness :
    (1 ≤ 1) ∧
    (((estimate_dbmr Cone Rhalf 1e-16 1).msg.isSome ↔
      1 < (estimate_dbmr Cone Rhalf 1e-16 1).lls.length) ∧
    (∀ d, (estimate_dbmr Cone Rhalf 1e-16 1).msg = some d →
      d.conv = 1e-16 ∧ d.maxIter = 1 ∧
      (estimate_dbmr Cone Rhalf 1e-16 1).lls.length = 1 + 1 ∧
      ∃ pre prev ll, (estimate_dbmr Cone Rhalf 1e-16 1).lls = pre ++ [prev, ll] ∧
        d.delta = |ll - prev|)) :=
  ⟨le_refl 1, nonconvergence_diagnostic Cone Rhalf 1e-16 1 (le_refl 1)⟩

/-- C9 (confirmed): the estimation loop terminates within `max_iter + 1` passes — each
pass appends exactly one likelihood, and giving the fuel-indexed loop any fuel beyond
`max_iter + 1` (the amount `estimate_dbmr` starts it with, second conjunct) changes
nothing, because the length check forces a stop by then if the convergence test has not
stopped it earlier. -/
theorem estimate_loop_fuel_stable {N K : ℕ} [NeZero K] (C : Fin N → Fin N → ℝ)
    (conv : ℝ) (max_iter : ℕ) :
    (∀ (extra : ℕ) (Lambda : Fin N → Fin K → ℝ) (Gamma : Fin K → Fin N → ℝ) (δ : ℝ),
      estimate_loop C conv max_iter (max_iter + 1 + extra) Lambda Gamma [] δ =
        estimate_loop C conv max_iter (max_iter + 1) Lambda Gamma [] δ) ∧
    (∀ R : Fin N → Fin K → ℝ, estimate_dbmr C R conv max_iter =
      estimate_loop C conv max_iter (max_iter + 1) (initLambda R)
        (updateGamma C (initLambda R)) [] 1) := by
  refine ⟨fun extra Lambda Gamma δ => ?_, fun R => rfl⟩
  exact estimate_loop_fuel_congr C conv max_iter (max_iter + 1 + extra) (max_iter + 1)
    Lambda Gamma [] δ (by simp) (by simp only [List.length_nil]; omega)
    (by simp only [List.length_nil]; omega)

/-- Witness for `estimate_loop_fuel_stable` at the concrete input `Cone`. -/
theorem estimate_loop_fuel_stable_witness :
    (∀ (extra : ℕ) (Lambda : Fin 1 → Fin 1 → ℝ) (Gamma : Fin 1 → Fin 1 → ℝ) (δ : ℝ),
      estimate_loop Cone 0 2 (2 + 1 + extra) Lambda Gamma [] δ =
        estimate_loop Cone 0 2 (2 + 1) Lambda Gamma [] δ) ∧
    (∀ R : Fin 1 → Fin 1 → ℝ, estimate_dbmr Cone R 0 2 =
      estimate_loop Cone 0 2 (2 + 1) (initLambda R)
        (updateGamma Cone (initLambda R)) [] 1) :=
  estimate_loop_fuel_stable Cone 0 2

/-- C10 (confirmed): for `K = 1` and any valid `C` (nonzero total mass, i.e. no zero
normalization denominator) the estimator returns the all-ones `1 × N` row as `Gamma` and
a `Lambda` whose single column is the vector of row sums of `C` normalized by the total
(and hence summing to 1), for every random sample `R` and for every
`0 ≤ convergence < 1` and `max_iter ≥ 1` — in particular for the source defaults
`convergence = 1e-16`, `max_iter = 1000`. -/
theorem k_one_reduces_to_row_marginal {N : ℕ} (C : Fin N → Fin N → ℝ)
    (R : Fin N → Fin 1 → ℝ) (conv : ℝ) (max_iter : ℕ)
    (hconv0 : 0 ≤ conv) (hconv1 : conv < 1) (hmi : 1 ≤ max_iter)
    (htot : (∑ x, ∑ j, C x j) ≠ 0) :
    (estimate_dbmr C R conv max_iter).Gamma = (fun _ _ => 1) ∧
    (estimate_dbmr C R conv max_iter).Lambda =
      (fun i _ => (∑ j, C i j) / ∑ x, ∑ j, C x j) ∧
    (∀ k, ∑ i, (estimate_dbmr C R conv max_iter).Lambda i k = 1) := by
  obtain ⟨M, rfl⟩ : ∃ M, max_iter = M + 1 := ⟨max_iter - 1, by omega⟩
  have hΓone : ∀ L : Fin N → Fin 1 → ℝ, updateGamma C L = (fun _ _ => (1 : ℝ)) :=
    fun L => updateGamma_k_one C L
  have hΛone : updateLambda C (fun _ _ => (1 : ℝ)) =
      (fun i (_ : Fin 1) => (∑ j, C i j) / ∑ x, ∑ j, C x j) := by
    funext i k
    unfold updateLambda lambdaUnnorm
    simp
  have hpd0 : ∀ x : ℝ, pyDelta [] x = 1 := fun _ => rfl
  have hpd1 : ∀ x : ℝ, pyDelta [x] x = 0 := by
    intro x
    unfold pyDelta
    simp
  have hkey : ∃ L0 msg0, estimate_loop C conv (M + 1) (M + 1 + 1) (initLambda R)
      (fun _ _ => (1 : ℝ)) [] 1 =
      ⟨updateLambda C (fun _ _ => (1 : ℝ)), (fun _ _ => (1 : ℝ)), L0, msg0⟩ := by
    rw [estimate_loop_go hconv1, List.nil_append,
      if_neg (by simp only [List.length_singleton]; omega),
      hΓone (updateLambda C (fun _ _ => (1 : ℝ))), hpd0,
      estimate_loop_go hconv1,
      hΓone (updateLambda C (fun _ _ => (1 : ℝ))), hpd1]
    by_cases hM : M = 0
    · subst hM
      rw [if_pos (by simp only [List.length_append, List.length_singleton]; omega)]
      exact ⟨_, _, rfl⟩
    · rw [if_neg (by simp only [List.length_append, List.length_singleton]; omega)]
      obtain ⟨M2, rfl⟩ : ∃ M2, M = M2 + 1 := ⟨M - 1, by omega⟩
      rw [estimate_loop_stop (not_lt.mpr hconv0)]
      exact ⟨_, _, rfl⟩
  obtain ⟨L0, msg0, hres⟩ := hkey
  unfold estimate_dbmr
  rw [hΓone (initLambda R), hres]
  refine ⟨rfl, hΛone, fun k => ?_⟩
  show ∑ i, updateLambda C (fun _ _ => (1 : ℝ)) i k = 1
  simp only [hΛone]
  rw [← Finset.sum_div]
  exact div_self htot

/-- Witness for `k_one_reduces_to_row_marginal` at the concrete input `Cone`, `Rhalf`
with the source defaults `convergence = 1e-16`, `max_iter = 1000`. -/
theorem k_one_reduces_to_row_marginal_witness :
    ((0 : ℝ) ≤ 1e-16 ∧ (1e-16 : ℝ) < 1 ∧ 1 ≤ 1000 ∧ (∑ x, ∑ j, Cone x j) ≠ 0) ∧
    ((estimate_dbmr Cone Rhalf 1e-16 1000).Gamma = (fun _ _ => 1) ∧
      (estimate_dbmr Cone Rhalf 1e-16 1000).Lambda =
        (fun i _ => (∑ j, Cone i j) / ∑ x, ∑ j, Cone x j) ∧
      (∀ k, ∑ i, (estimate_dbmr Cone Rhalf 1e-16 1000).Lambda i k = 1)) :=
  ⟨⟨by norm_num, by norm_num, by norm_num, by simp [Cone]⟩,
    k_one_reduces_to_row_marginal Cone Rhalf 1e-16 1000 (by norm_num) (by norm_num)
      (by norm_num) (by simp [Cone])⟩

end

end DBMR
